import Mathlib

/-!
Formal model of the dque persistent FIFO queue (joncrlsn/dque).

The model is a shallow embedding of the Go sources:
- `qSegment` (segment.go): a segment is an append-only file of frames plus an
  in-memory list of live objects and a tombstone counter.  A frame is either a
  data frame (length-prefixed gob payload) or a zero-length tombstone frame.
- `DQue` (dque.go, the revision consistent with segment.go: four-argument
  `newQueueSegment`, `errEmptySegment`): the queue keeps the first (head) and
  last (tail) segments in memory; segments strictly between them exist only as
  files on disk and are reopened (replayed) on demand.

Two levels of modelling are used:
- a frame level (`Frame α = Option α`), where gob encoding is abstracted away,
  used for the queue operations `Enqueue` / `Dequeue` / `Size`;
- a byte level (`loadBytes`), faithful to `qSegment.load` including the
  4-byte little-endian length headers, Go `File.Read` short-read behaviour,
  the ignored `gob.Decoder.Decode` error, and the unguarded `objects[1:]`
  slice (a Go panic, modelled as `LoadResult.panicked`).

Construction (`New` / `Open` / `NewOrOpen`) and directory recovery
(`DQue.load`) are modelled over a directory listing of paths (lists of
characters), faithful to the validation order and the
`^([0-9]+)\.dque$` / `maxNum > 0` recovery decision.
-/

namespace DqueModel

/-- One on-disk frame: `some a` is a data frame holding record `a`;
`none` is a zero-length tombstone frame written by `qSegment.remove`. -/
abbrev Frame (α : Type) := Option α

/-- Number of data frames in a file (records ever appended). -/
def dataCount {α : Type} (fr : List (Frame α)) : Nat := (fr.filterMap id).length

/-- Number of tombstone frames in a file. -/
def tombCount {α : Type} : List (Frame α) → Nat
  | [] => 0
  | none :: t => tombCount t + 1
  | some _ :: t => tombCount t

/-- In-memory segment state, mirroring the Go struct `qSegment`:
segment number, live objects, tombstone (`removeCount`) counter, and the
frames of its on-disk file. -/
structure Seg (α : Type) where
  number : Nat
  objects : List α
  removeCount : Nat
  frames : List (Frame α)
  deriving DecidableEq, Repr

/-- `newQueueSegment`: fresh segment with an empty file. -/
def newSeg {α : Type} (n : Nat) : Seg α := ⟨n, [], 0, []⟩

/-- `qSegment.size`: number of live objects. -/
def Seg.size {α : Type} (s : Seg α) : Nat := s.objects.length

/-- `qSegment.sizeOnDisk`: live objects plus removed objects; per the Go
comment this matches the number of objects (data frames) still in the file. -/
def Seg.sizeOnDisk {α : Type} (s : Seg α) : Nat := s.objects.length + s.removeCount

/-- `qSegment.add`: append a data frame to the file and the object to the
live list (gob encoding of a fixed record type is modelled as always
succeeding; file writes are modelled as error-free). -/
def Seg.add {α : Type} (s : Seg α) (a : α) : Seg α :=
  { s with objects := s.objects ++ [a], frames := s.frames ++ [some a] }

/-- `qSegment.remove`: on an empty live list return `errEmptySegment`
(modelled as `none`); otherwise append a zero-length tombstone frame to the
file, pop the head of the live list and bump `removeCount`. -/
def Seg.remove {α : Type} (s : Seg α) : Option (α × Seg α) :=
  match s.objects with
  | [] => none
  | a :: tl =>
    some (a, ⟨s.number, tl, s.removeCount + 1, s.frames ++ [none]⟩)

/-- Frame-level replay of a segment file (`qSegment.load` with gob decoding
abstracted): data frames append to the live list, tombstone frames pop its
head.  `none` models the Go panic of `seg.objects = seg.objects[1:]` on an
empty slice. -/
def replayAux {α : Type} : List α → Nat → List (Frame α) → Option (List α × Nat)
  | objs, rc, [] => some (objs, rc)
  | objs, rc, none :: rest =>
    match objs with
    | [] => none
    | _ :: tl => replayAux tl (rc + 1) rest
  | objs, rc, some a :: rest => replayAux (objs ++ [a]) rc rest

/-- Replay a file from scratch (`openQueueSegment`'s call to `load`). -/
def replay {α : Type} (fr : List (Frame α)) : Option (List α × Nat) :=
  replayAux [] 0 fr

/-- In-memory queue state, mirroring the Go struct `DQue`.
`lastSegment = none` models the aliased state in which `q.firstSegment` and
`q.lastSegment` are the same `qSegment` instance; `midFiles` are the on-disk
files (keyed by segment number) of segments strictly between the first and
last segment, which Go keeps only on disk. -/
structure DQue (α : Type) where
  ips : Nat
  firstSegment : Seg α
  midFiles : List (Nat × List (Frame α))
  lastSegment : Option (Seg α)
  deriving DecidableEq, Repr

/-- The tail segment (`q.lastSegment`, which aliases `q.firstSegment` when
the queue has a single segment). -/
def lastSeg {α : Type} (q : DQue α) : Seg α :=
  match q.lastSegment with
  | none => q.firstSegment
  | some l => l

/-- The queue produced by `New` on an empty directory (`DQue.load` finds no
files and creates segment 1 as both first and last segment). -/
def freshQ {α : Type} (ips : Nat) : DQue α := ⟨ips, newSeg 1, [], none⟩

/-- First half of `DQue.Enqueue`: if the last segment's `sizeOnDisk` has
reached `ItemsPerSegment`, create segment `lastSegment.number + 1` and make
it the last segment.  When first and last were aliased, the old segment
stays in place as the first segment. -/
def rollIfFull {α : Type} (q : DQue α) : DQue α :=
  if q.ips ≤ (lastSeg q).sizeOnDisk then
    match q.lastSegment with
    | none => { q with lastSegment := some (newSeg (q.firstSegment.number + 1)) }
    | some l =>
      { q with midFiles := q.midFiles ++ [(l.number, l.frames)],
               lastSegment := some (newSeg (l.number + 1)) }
  else q

/-- Second half of `DQue.Enqueue`: `q.lastSegment.add(obj)` (which mutates
the first segment too when the two are aliased). -/
def addToLast {α : Type} (q : DQue α) (a : α) : DQue α :=
  match q.lastSegment with
  | none => { q with firstSegment := q.firstSegment.add a }
  | some l => { q with lastSegment := some (l.add a) }

/-- `DQue.Enqueue`: roll over first if the last segment is full, then add. -/
def enqueue {α : Type} (q : DQue α) (a : α) : DQue α :=
  addToLast (rollIfFull q) a

/-- Result of `DQue.Dequeue`: `empty` is `ErrEmpty`; `ok` is a successful
dequeue; `fail` models the error paths that return the removed object
together with a "Queue is in an inconsistent state" error. -/
inductive DeqRes (α : Type) where
  | empty
  | ok (a : α)
  | fail (a : α)
  deriving DecidableEq, Repr

/-- Head-segment replacement of `DQue.Dequeue`, run when the just-emptied
first segment has reached the rollover threshold and its file was deleted:
same number as the last segment means the queue had one segment (create a
fresh one); adjacent numbers collapse first onto last; otherwise the segment
numbered `firstSegment.number + 1` is opened from disk and replayed. `none`
models the error paths (missing file, replay panic). -/
def advanceHead {α : Type} (q : DQue α) (f : Seg α) : Option (DQue α) :=
  match q.lastSegment with
  | none => some { q with firstSegment := newSeg (f.number + 1) }
  | some l =>
    if f.number + 1 = l.number then
      some { q with firstSegment := l, lastSegment := none }
    else
      match q.midFiles.find? (fun p => p.1 == f.number + 1) with
      | none => none
      | some (n, fr) =>
        match replay fr with
        | none => none
        | some (objs, rc) =>
          some { q with firstSegment := ⟨n, objs, rc, fr⟩,
                        midFiles := q.midFiles.eraseP (fun p => p.1 == f.number + 1) }

/-- `DQue.Dequeue`: remove from the first segment; then, if the first
segment is now live-empty and its `sizeOnDisk` has reached
`ItemsPerSegment`, delete its file and advance the head. -/
def dequeue {α : Type} (q : DQue α) : DeqRes α × DQue α :=
  match Seg.remove q.firstSegment with
  | none => (.empty, q)
  | some (a, f) =>
    let q1 := { q with firstSegment := f }
    if f.size = 0 ∧ q.ips ≤ f.sizeOnDisk then
      match advanceHead q1 f with
      | some q2 => (.ok a, q2)
      | none => (.fail a, q1)
    else (.ok a, q1)

/-- `DQue.Size`, transcribed from the source including its dead middle
branch (`firstSegment.number == lastSegment.number+1`). -/
def SizeQ {α : Type} (q : DQue α) : Nat :=
  let l := lastSeg q
  if q.firstSegment.number = l.number then q.firstSegment.size
  else if q.firstSegment.number = l.number + 1 then q.firstSegment.size + l.size
  else q.firstSegment.size + (l.number - q.firstSegment.number - 1) * q.ips + l.size

/-- The size formula exactly as the specification states it, written from
the spec's words for comparison with `SizeQ`. -/
def sizeSpecFormula {α : Type} (q : DQue α) : Nat :=
  match q.lastSegment with
  | none => q.firstSegment.size
  | some l =>
    if l.number = q.firstSegment.number + 1 then q.firstSegment.size + l.size
    else q.firstSegment.size + (l.number - q.firstSegment.number - 1) * q.ips + l.size

/-- All segment files currently on disk, keyed by segment number: the first
segment's file, the middle files, and the last segment's file. -/
def diskFiles {α : Type} (q : DQue α) : List (Nat × List (Frame α)) :=
  (q.firstSegment.number, q.firstSegment.frames) ::
    (q.midFiles ++ match q.lastSegment with
                   | none => []
                   | some l => [(l.number, l.frames)])

/-- The queue contents, head first: live objects of the first segment, the
records of the middle files in order, and the live objects of the last
segment. -/
def contents {α : Type} (q : DQue α) : List α :=
  q.firstSegment.objects ++
    (q.midFiles.map (fun p => p.2.filterMap id)).flatten ++
    (match q.lastSegment with
     | none => []
     | some l => l.objects)

/-- Accounting invariant of one segment: the data frames of its file are
exactly the live objects plus the tombstoned ones, and the tombstone frames
are counted by `removeCount`. -/
@[reducible] def segAcct {α : Type} (s : Seg α) : Prop :=
  dataCount s.frames = s.objects.length + s.removeCount ∧
    tombCount s.frames = s.removeCount

/-- Well-formedness of a queue state (established by `New`, preserved by
`Enqueue` and `Dequeue`): the first segment satisfies the accounting
invariant; with more than one segment, the last segment's file holds
exactly its live objects (it never received tombstones), the middle files
hold only data frames, and segment numbers are consecutive. -/
@[reducible] def WF {α : Type} (q : DQue α) : Prop :=
  segAcct q.firstSegment ∧
    match q.lastSegment with
    | none => q.midFiles = []
    | some l =>
      l.frames = l.objects.map some ∧ l.removeCount = 0 ∧
        (∀ p ∈ q.midFiles, ∀ x ∈ p.2, x.isSome = true) ∧
        q.midFiles.map Prod.fst = List.range' (q.firstSegment.number + 1) q.midFiles.length ∧
        l.number = q.firstSegment.number + 1 + q.midFiles.length

/-- An operation on the queue: `Enqueue` of a record, or `Dequeue`. -/
inductive Op (α : Type) where
  | enq (a : α)
  | deq
  deriving DecidableEq, Repr

/-- Run a sequence of operations, returning the final state. -/
def runQ {α : Type} : List (Op α) → DQue α → DQue α
  | [], q => q
  | .enq a :: ops, q => runQ ops (enqueue q a)
  | .deq :: ops, q => runQ ops (dequeue q).2

/-- Records passed to `Enqueue` by a sequence of operations (in this model
`Enqueue` always succeeds: gob encoding of the queue's fixed record type
and file writes are error-free). -/
def enqList {α : Type} (ops : List (Op α)) : List α :=
  ops.filterMap (fun o => match o with | .enq a => some a | .deq => none)

/-- Records returned by the successful `Dequeue` calls of a sequence of
operations (calls returning `ErrEmpty` or an error return nothing). -/
def deqList {α : Type} : List (Op α) → DQue α → List α
  | [], _ => []
  | .enq a :: ops, q => deqList ops (enqueue q a)
  | .deq :: ops, q =>
    match dequeue q with
    | (.ok a, q') => a :: deqList ops q'
    | (_, q') => deqList ops q'

/-- A state is reachable when some operation sequence produces it from the
fresh queue created by `New`. -/
def Reachable {α : Type} (ips : Nat) (q : DQue α) : Prop :=
  ∃ ops : List (Op α), runQ ops (freshQ ips) = q

/-! ## Byte-level model of `qSegment.load` -/

/-- Little-endian decoding of a 4-byte header (`binary.LittleEndian.Uint32`). -/
def decodeLE32 (bs : List Nat) : Nat :=
  match bs with
  | [a, b, c, d] => a + 256 * (b + 256 * (c + 256 * d))
  | _ => 0

/-- Little-endian encoding of a 4-byte header (`binary.LittleEndian.PutUint32`). -/
def encodeLE32 (n : Nat) : List Nat :=
  [n % 256, n / 256 % 256, n / 65536 % 256, n / 16777216 % 256]

/-- Outcome of `qSegment.load` on a byte string. -/
inductive LoadResult (α : Type) where
  | ok (objects : List α) (removeCount : Nat)
  | shortHeader
  | readEnded
  | panicked
  deriving DecidableEq, Repr

/-- The read loop of `qSegment.load`, byte for byte:
- clean EOF on the header read stops with success;
- a 1-3 byte header read is the "not enough bytes were read" error;
- a zero header is a tombstone: `seg.objects = seg.objects[1:]` panics on an
  empty slice (`panicked`);
- otherwise a payload buffer of `gobLen` zero bytes is filled by `File.Read`:
  reading at EOF yields `io.EOF` (`readEnded`, wrapped as "error reading gob
  bytes"); a short read goes undetected * the buffer stays zero-padded; the
  `gob.Decoder.Decode` error is dropped, so the object (decoded on success,
  otherwise the builder's fresh object `mk`) is appended unconditionally.
The fuel argument is called with the byte count, which bounds the number of
iterations since every iteration consumes at least four bytes. -/
def loadLoop {α : Type} (decode : List Nat → Option α) (mk : α) :
    Nat → List α → Nat → List Nat → LoadResult α
  | _, objs, rc, [] => .ok objs rc
  | 0, objs, rc, _ :: _ => .ok objs rc
  | fuel + 1, objs, rc, b :: bs =>
    if (b :: bs).length < 4 then .shortHeader
    else
      let gobLen := decodeLE32 ((b :: bs).take 4)
      let rem := (b :: bs).drop 4
      if gobLen = 0 then
        match objs with
        | [] => .panicked
        | _ :: tl => loadLoop decode mk fuel tl (rc + 1) rem
      else if rem.isEmpty then .readEnded
      else
        loadLoop decode mk fuel
          (objs ++ [(decode (rem.take gobLen ++
            List.replicate (gobLen - rem.length) 0)).getD mk]) rc
          (rem.drop gobLen)

/-- `qSegment.load` on the full byte contents of a segment file. -/
def loadBytes {α : Type} (decode : List Nat → Option α) (mk : α)
    (bytes : List Nat) : LoadResult α :=
  loadLoop decode mk bytes.length [] 0 bytes

/-- Serialize a frame list to file bytes: a data frame is its payload length
as a little-endian `u32` followed by the payload; a tombstone is a zero
header. -/
def encodeFrames : List (Frame (List Nat)) → List Nat
  | [] => []
  | none :: fs => [0, 0, 0, 0] ++ encodeFrames fs
  | some p :: fs => encodeLE32 p.length ++ (p ++ encodeFrames fs)

/-! ## Construction and directory recovery (`New` / `Open` / `NewOrOpen`) -/

/-- File-system paths are modelled as character lists. -/
abbrev FPath := List Char

/-- `path.Join(dirPath, name)` for the clean relative names used here. -/
def pjoin (d n : FPath) : FPath := d ++ '/' :: n

/-- Directory state: the set of existing directories and of existing files,
as absolute paths. -/
structure Fsys where
  dirs : List FPath
  files : List FPath
  deriving DecidableEq, Repr

/-- Strip `pre` from the front of `p`. -/
def stripPre : FPath → FPath → Option FPath
  | [], p => some p
  | _ :: _, [] => none
  | c :: pre, d :: p => if c = d then stripPre pre p else none

/-- Names of directory entries of `dir` that are files (entries of
`ioutil.ReadDir` with `IsDir()` false). -/
def entriesUnder (fs : Fsys) (dir : FPath) : List FPath :=
  fs.files.filterMap (stripPre (dir ++ ['/']))

/-- Parse a file name against `^([0-9]+)\.dque$` and `strconv.Atoi`:
a non-empty run of digits followed by exactly `.dque`. -/
def parseDque (nm : FPath) : Option Nat :=
  let ext : FPath := ['.', 'd', 'q', 'u', 'e']
  if 5 < nm.length ∧ nm.drop (nm.length - 5) = ext ∧
      (nm.take (nm.length - 5)).all (fun c => c.isDigit) then
    some ((nm.take (nm.length - 5)).foldl (fun acc c => 10 * acc + (c.toNat - 48)) 0)
  else none

/-- What `DQue.load` decides to do after scanning the directory. -/
inductive LoadOutcome where
  | freshSeg1
  | openOne (n : Nat)
  | openTwo (mn mx : Nat)
  deriving DecidableEq, Repr

/-- The `%013d.dque` file name of segment `n`. -/
def segFileName (n : Nat) : FPath :=
  List.replicate (13 - (Nat.toDigits 10 n).length) '0' ++
    Nat.toDigits 10 n ++ ['.', 'd', 'q', 'u', 'e']

/-- The scan of `DQue.load`: fold the parsed file numbers into
`(minNum, maxNum)` starting from `(math.MaxInt32, 0)`, then require
`maxNum > 0` to treat any files as found; otherwise create segment 1 as
both first and last segment. -/
def dqueLoadDecision (names : List FPath) : LoadOutcome :=
  let nums := names.filterMap parseDque
  let mx := nums.foldl max 0
  let mn := nums.foldl min 2147483647
  if 0 < mx then
    if mn = mx then .openOne mn else .openTwo mn mx
  else .freshSeg1

/-- Apply the file-creating effect of `DQue.load` on directory `fp`:
only the fresh-queue branch creates a file (segment 1's empty file). -/
def applyDecision (fs : Fsys) (fp : FPath) : LoadOutcome → Fsys
  | .freshSeg1 => { fs with files := fs.files ++ [fp ++ '/' :: segFileName 1] }
  | _ => fs

/-- Validation errors of `New` / `Open` / `NewOrOpen`. -/
inductive QErr where
  | emptyName
  | emptyDir
  | badDir
  | dirAlready
  | noDir
  deriving DecidableEq, Repr

/-- Result of a constructor: the recovery outcome, or a validation error. -/
inductive QRes where
  | ok (out : LoadOutcome)
  | err (e : QErr)
  deriving DecidableEq, Repr

/-- `New`, transcribed from the source: validations in order (empty name,
empty directory path, missing parent directory, pre-existing queue
directory), then `os.Mkdir` and `q.load()`.  `itemsPerSegment` is accepted
unchecked. -/
def NewQ (fs : Fsys) (name dirPath : FPath) (ips : Nat) : QRes × Fsys :=
  if name.length = 0 then (.err .emptyName, fs)
  else if dirPath.length = 0 then (.err .emptyDir, fs)
  else if ¬ dirPath ∈ fs.dirs then (.err .badDir, fs)
  else if pjoin dirPath name ∈ fs.dirs then (.err .dirAlready, fs)
  else
    (.ok (dqueLoadDecision (entriesUnder
        { fs with dirs := fs.dirs ++ [pjoin dirPath name] } (pjoin dirPath name))),
      applyDecision { fs with dirs := fs.dirs ++ [pjoin dirPath name] }
        (pjoin dirPath name)
        (dqueLoadDecision (entriesUnder
          { fs with dirs := fs.dirs ++ [pjoin dirPath name] } (pjoin dirPath name))))

/-- `Open`, transcribed from the source: validations in order (empty name,
empty directory path, missing parent directory, missing queue directory),
then `q.load()`.  `itemsPerSegment` is accepted unchecked. -/
def OpenQ (fs : Fsys) (name dirPath : FPath) (ips : Nat) : QRes × Fsys :=
  if name.length = 0 then (.err .emptyName, fs)
  else if dirPath.length = 0 then (.err .emptyDir, fs)
  else if ¬ dirPath ∈ fs.dirs then (.err .badDir, fs)
  else if ¬ pjoin dirPath name ∈ fs.dirs then (.err .noDir, fs)
  else
    (.ok (dqueLoadDecision (entriesUnder fs (pjoin dirPath name))),
      applyDecision fs (pjoin dirPath name)
        (dqueLoadDecision (entriesUnder fs (pjoin dirPath name))))

/-- `NewOrOpen`, transcribed from the source: the same three leading
validations, then dispatch on the existence of the queue directory. -/
def NewOrOpenQ (fs : Fsys) (name dirPath : FPath) (ips : Nat) : QRes × Fsys :=
  if name.length = 0 then (.err .emptyName, fs)
  else if dirPath.length = 0 then (.err .emptyDir, fs)
  else if ¬ dirPath ∈ fs.dirs then (.err .badDir, fs)
  else if pjoin dirPath name ∈ fs.dirs then OpenQ fs name dirPath ips
  else NewQ fs name dirPath ips

/-! ## Statement-level definitions -/

/-- Bound on disk usage: every segment file holds at most `ItemsPerSegment`
data frames. -/
def Bounded {α : Type} (q : DQue α) : Prop :=
  ∀ p ∈ diskFiles q, dataCount p.2 ≤ q.ips

/-- The reclamation contract of `DQue.Dequeue` for a queue `q` whose first
segment yields `(a, f)` on remove: the dequeue succeeds, and exactly when
the remaining live count is zero and `sizeOnDisk` has reached
`ItemsPerSegment`, the head file is deleted and the head is replaced (fresh
segment when head and tail were the same; the tail when their numbers are
adjacent; otherwise the replayed on-disk segment numbered one higher);
below the threshold the head segment and its file are retained. -/
def ReclaimSpec {α : Type} (q : DQue α) (a : α) (f : Seg α) : Prop :=
  (dequeue q).1 = DeqRes.ok a ∧
  (if f.size = 0 ∧ q.ips ≤ f.sizeOnDisk then
    f.number ∉ (diskFiles (dequeue q).2).map Prod.fst ∧
    (match q.lastSegment with
     | none =>
       (dequeue q).2.firstSegment = newSeg (f.number + 1) ∧
         (dequeue q).2.lastSegment = none
     | some l =>
       if f.number + 1 = l.number then
         (dequeue q).2.firstSegment = l ∧ (dequeue q).2.lastSegment = none
       else
         ∃ fr, (f.number + 1, fr) ∈ q.midFiles ∧
           (dequeue q).2.firstSegment.number = f.number + 1 ∧
           (dequeue q).2.firstSegment.frames = fr ∧
           replay fr = some ((dequeue q).2.firstSegment.objects,
             (dequeue q).2.firstSegment.removeCount) ∧
           (dequeue q).2.lastSegment = q.lastSegment)
  else
    (dequeue q).2.firstSegment = f ∧ (dequeue q).2.lastSegment = q.lastSegment ∧
      f.number ∈ (diskFiles (dequeue q).2).map Prod.fst)

/-! ## Concrete states used by witnesses and counterexamples -/

/-- A one-segment queue with `ItemsPerSegment = 1` holding one record. -/
@[reducible] def cq3 : DQue Nat := ⟨1, ⟨1, [5], 0, [some 5]⟩, [], none⟩

/-- The first segment of `cq3` after its remove. -/
@[reducible] def cf3 : Seg Nat := ⟨1, [], 1, [some 5, none]⟩

/-- Operations driving a retained live-empty head segment past the frame
cap: enqueue, dequeue (tombstone retained), enqueue again. -/
@[reducible] def c4ops : List (Op Nat) := [.enq 0, .deq, .enq 1]

/-- The segment obtained from one add and one remove on a fresh segment:
two frames on disk, no live object, one tombstone. -/
@[reducible] def c6seg : Seg Nat := ⟨1, [], 1, [some 0, none]⟩

/-- A two-segment queue with `ItemsPerSegment = 3`. -/
@[reducible] def cq7 : DQue Nat := ⟨3, ⟨1, [10], 0, [some 10]⟩, [], some ⟨2, [20], 0, [some 20]⟩⟩

/-- A file system with one empty parent directory `d`. -/
@[reducible] def fs8 : Fsys := ⟨[['d']], []⟩

/-- A file system holding queue directory `d/q` whose only entry is the
segment file numbered zero. -/
@[reducible] def fs10 : Fsys :=
  ⟨[['d'], pjoin ['d'] ['q']], [pjoin ['d'] ['q'] ++ '/' :: segFileName 0]⟩

/-- A decoder that rejects every payload. -/
@[reducible] def decNone : List Nat → Option Nat := fun _ => none

/-- A well-formed frame list whose replay must pop after a push. -/
@[reducible] def fs9frames : List (Frame (List Nat)) := [some [1], none]

/-- A frame whose encoding round-trips: a data payload is non-empty (a
zero-length payload would be a tombstone) and fits the `u32` header. -/
@[reducible] def goodPayload : Frame (List Nat) → Prop
  | none => True
  | some pl => pl ≠ [] ∧ pl.length < 4294967296

instance (x : Frame (List Nat)) : Decidable (goodPayload x) :=
  match x with
  | none => isTrue trivial
  | some pl => inferInstanceAs (Decidable (pl ≠ [] ∧ pl.length < 4294967296))

/-! ## Counting lemmas -/

theorem dataCount_nil {α : Type} : dataCount ([] : List (Frame α)) = 0 := rfl

theorem dataCount_append {α : Type} (l₁ l₂ : List (Frame α)) :
    dataCount (l₁ ++ l₂) = dataCount l₁ + dataCount l₂ := by
  simp [dataCount, List.filterMap_append]

theorem dataCount_map_some {α : Type} (l : List α) :
    dataCount (l.map some) = l.length := by
  simp [dataCount, List.filterMap_map]

theorem dataCount_some_one {α : Type} (a : α) : dataCount [some a] = 1 := rfl

theorem dataCount_none_zero {α : Type} : dataCount [(none : Frame α)] = 0 := rfl

theorem tombCount_some_zero {α : Type} (a : α) : tombCount [some a] = 0 := rfl

theorem tombCount_none_one {α : Type} : tombCount [(none : Frame α)] = 1 := rfl

theorem tombCount_append {α : Type} (l₁ l₂ : List (Frame α)) :
    tombCount (l₁ ++ l₂) = tombCount l₁ + tombCount l₂ := by
  induction l₁ with
  | nil => simp [tombCount]
  | cons x t ih => cases x <;> simp [tombCount, ih] <;> omega

theorem tombCount_allSome {α : Type} (fr : List (Frame α))
    (h : ∀ x ∈ fr, x.isSome = true) : tombCount fr = 0 := by
  induction fr with
  | nil => rfl
  | cons x t ih =>
    cases x with
    | none => exact absurd (h none (by simp)) (by simp)
    | some a => exact ih (fun x hx => h x (by simp [hx]))

theorem length_eq_dataCount_add_tombCount {α : Type} (fr : List (Frame α)) :
    fr.length = dataCount fr + tombCount fr := by
  induction fr with
  | nil => rfl
  | cons x t ih => cases x <;> simp [dataCount, tombCount, List.filterMap] at ih ⊢ <;> omega

theorem filterMap_id_allSome_length {α : Type} (fr : List (Frame α))
    (h : ∀ x ∈ fr, x.isSome = true) : (fr.filterMap id).length = fr.length := by
  have := length_eq_dataCount_add_tombCount fr
  have h0 := tombCount_allSome fr h
  simpa [dataCount, h0] using this.symm

/-! ## Replay lemmas -/

theorem replayAux_allSome {α : Type} (fr : List (Frame α))
    (h : ∀ x ∈ fr, x.isSome = true) :
    ∀ objs rc, replayAux objs rc fr = some (objs ++ fr.filterMap id, rc) := by
  induction fr with
  | nil => intro objs rc; simp [replayAux]
  | cons x t ih =>
    intro objs rc
    cases x with
    | none => exact absurd (h none (by simp)) (by simp)
    | some a =>
      have ht : ∀ x ∈ t, x.isSome = true := fun x hx => h x (by simp [hx])
      simp [replayAux, ih ht]

theorem replay_allSome {α : Type} (fr : List (Frame α))
    (h : ∀ x ∈ fr, x.isSome = true) :
    replay fr = some (fr.filterMap id, 0) := by
  simpa using replayAux_allSome fr h [] 0

theorem replay_map_some {α : Type} (l : List α) :
    replay (l.map some) = some (l, 0) := by
  rw [replay_allSome (l.map some) (by simp)]
  simp [List.filterMap_map]

theorem replayAux_counts {α : Type} (fr : List (Frame α)) :
    ∀ objs rc objs' rc', replayAux objs rc fr = some (objs', rc') →
      objs'.length + rc' = objs.length + rc + dataCount fr ∧
        rc' = rc + tombCount fr := by
  induction fr with
  | nil =>
    intro objs rc objs' rc' h
    simp [replayAux] at h
    simp [h.1, h.2, dataCount, tombCount]
  | cons x t ih =>
    intro objs rc objs' rc' h
    cases x with
    | none =>
      cases objs with
      | nil => simp [replayAux] at h
      | cons o tl =>
        have := ih tl (rc + 1) objs' rc' (by simpa [replayAux] using h)
        simp [dataCount, tombCount, List.filterMap] at this ⊢
        omega
    | some a =>
      have := ih (objs ++ [a]) rc objs' rc' (by simpa [replayAux] using h)
      simp [dataCount, tombCount, List.filterMap] at this ⊢
      omega

theorem replay_counts {α : Type} (fr : List (Frame α)) (objs : List α) (rc : Nat)
    (h : replay fr = some (objs, rc)) :
    objs.length + rc = dataCount fr ∧ rc = tombCount fr := by
  have := replayAux_counts fr [] 0 objs rc h
  simpa using this

/-! ## Claim C6: frame-count accounting -/

/-- C6, as stated, is false: after one add and one remove on a fresh
segment, the file holds two frames (one data frame and one tombstone), but
the live list is empty and the removed count is one, so the number of
frames ever appended to the file is not `len(live) + removed_count`. -/
theorem frame_accounting_counterexample :
    ((newSeg 1 : Seg Nat).add 0).remove = some (0, c6seg) ∧
      ¬ c6seg.frames.length = c6seg.objects.length + c6seg.removeCount := by
  decide

/-- C6 (amended): for every segment, the number of DATA frames ever
appended to its file equals the length of its live list plus its removed
(tombstone) count, and the tombstone frames are counted by `removeCount`
(so `sizeOnDisk` equals the number of data frames, not the total frame
count — the file additionally holds one tombstone frame per remove).  The
equation holds after construction, is preserved by every add and every
successful remove, and is re-established by replay on open. -/
theorem frame_accounting_data_frames {α : Type} (n : Nat) (s s₂ : Seg α)
    (a b : α) (fr : List (Frame α)) (objs : List α) (rc : Nat)
    (hs : segAcct s) (hrem : s.remove = some (b, s₂))
    (hrep : replay fr = some (objs, rc)) :
    segAcct (newSeg (α := α) n) ∧ segAcct (s.add a) ∧ segAcct s₂ ∧
      dataCount fr = objs.length + rc ∧ tombCount fr = rc := by
  obtain ⟨hd, ht⟩ := hs
  refine ⟨⟨rfl, rfl⟩, ⟨?_, ?_⟩, ?_, ?_, ?_⟩
  · show dataCount (s.frames ++ [some a]) = (s.objects ++ [a]).length + s.removeCount
    rw [dataCount_append, dataCount_some_one, hd]
    simp
    omega
  · show tombCount (s.frames ++ [some a]) = s.removeCount
    rw [tombCount_append, tombCount_some_zero, ht]
    omega
  · rcases hos : s.objects with _ | ⟨o, tl⟩ <;> rw [Seg.remove, hos] at hrem
    · exact absurd hrem (by simp)
    · simp only [Option.some.injEq, Prod.mk.injEq] at hrem
      obtain ⟨-, hseg⟩ := hrem
      subst hseg
      refine ⟨?_, ?_⟩
      · show dataCount (s.frames ++ [none]) = tl.length + (s.removeCount + 1)
        rw [dataCount_append, dataCount_none_zero, hd, hos]
        simp
        omega
      · show tombCount (s.frames ++ [none]) = s.removeCount + 1
        rw [tombCount_append, tombCount_none_one, ht]
  · exact ((replay_counts fr objs rc hrep).1).symm
  · exact ((replay_counts fr objs rc hrep).2).symm

/-- Witness for the amended C6 at a concrete segment and file. -/
theorem frame_accounting_data_frames_witness :
    segAcct (⟨1, [7], 0, [some 7]⟩ : Seg Nat) ∧
      (⟨1, [7], 0, [some 7]⟩ : Seg Nat).remove = some (7, ⟨1, [], 1, [some 7, none]⟩) ∧
      replay [some 1, none, some 2] = some ([2], 1) ∧
      (segAcct (newSeg (α := Nat) 3) ∧
        segAcct ((⟨1, [7], 0, [some 7]⟩ : Seg Nat).add 4) ∧
        segAcct (⟨1, [], 1, [some 7, none]⟩ : Seg Nat) ∧
        dataCount [some 1, none, some 2] = [2].length + 1 ∧
        tombCount [some 1, none, some 2] = 1) :=
  ⟨by decide, by decide, by decide,
    frame_accounting_data_frames 3 ⟨1, [7], 0, [some 7]⟩ ⟨1, [], 1, [some 7, none]⟩
      4 7 [some 1, none, some 2] [2] 1 (by decide) (by decide) (by decide)⟩

/-! ## Claim C2: roll-before-add -/

/-- C2: `DQue.Enqueue` first checks whether the tail segment's on-disk
frame count (`sizeOnDisk`, live count plus tombstone count) has reached
`ItemsPerSegment`; if so it allocates a new segment numbered
`lastSegment.number + 1`, makes it the tail and only then adds the record,
so the triggering record lands alone in the newly allocated segment;
otherwise the record is appended to the existing tail. -/
theorem enqueue_roll_before_add {α : Type} (q : DQue α) (a : α) :
    if q.ips ≤ (lastSeg q).sizeOnDisk then
      (lastSeg (enqueue q a)).number = (lastSeg q).number + 1 ∧
        (lastSeg (enqueue q a)).objects = [a] ∧
        (lastSeg (enqueue q a)).frames = [some a]
    else
      (lastSeg (enqueue q a)).number = (lastSeg q).number ∧
        (lastSeg (enqueue q a)).objects = (lastSeg q).objects ++ [a] := by
  rcases q with ⟨ips, f, ms, lo⟩
  cases lo with
  | none =>
    by_cases h : ips ≤ f.sizeOnDisk
    · rw [if_pos (by simpa [lastSeg] using h)]
      simp [enqueue, rollIfFull, addToLast, lastSeg, Seg.add, newSeg, h]
    · rw [if_neg (by simpa [lastSeg] using h)]
      simp [enqueue, rollIfFull, addToLast, lastSeg, Seg.add, h]
  | some l =>
    by_cases h : ips ≤ l.sizeOnDisk
    · rw [if_pos (by simpa [lastSeg] using h)]
      simp [enqueue, rollIfFull, addToLast, lastSeg, Seg.add, newSeg, h]
    · rw [if_neg (by simpa [lastSeg] using h)]
      simp [enqueue, rollIfFull, addToLast, lastSeg, Seg.add, h]

/-! ## Claim C7: size formula -/

/-- C7: `DQue.Size` returns the head segment's live count when head and
tail are the same segment; `head.size() + tail.size()` when
`tail.number = head.number + 1`; and otherwise
`head.size() + (tail.number - head.number - 1) * itemsPerSegment +
tail.size()` — i.e. it agrees with the specification's formula
(`sizeSpecFormula`) on every well-formed state, even though the source's
middle branch tests `first.number == last.number + 1` the wrong way
around and is dead. -/
theorem size_formula {α : Type} (q : DQue α) (hwf : WF q) :
    SizeQ q = sizeSpecFormula q := by
  rcases q with ⟨ips, f, ms, lo⟩
  cases lo with
  | none => simp [SizeQ, sizeSpecFormula, lastSeg]
  | some l =>
    obtain ⟨-, -, -, -, -, hln⟩ := hwf
    simp only [SizeQ, sizeSpecFormula, lastSeg]
    rw [if_neg (by simp at hln ⊢; omega), if_neg (by simp at hln ⊢; omega)]
    by_cases h3 : l.number = f.number + 1
    · rw [if_pos h3]
      have h0 : l.number - f.number - 1 = 0 := by omega
      simp [h0]
    · rw [if_neg h3]

/-- Witness for C7 at a concrete two-segment queue. -/
theorem size_formula_witness : WF cq7 ∧ SizeQ cq7 = sizeSpecFormula cq7 :=
  ⟨by decide, size_formula cq7 (by decide)⟩

/-! ## Claim C5: replay of a bad payload -/

/-- C5 claims that replay fails with a corrupted-segment error when a data
frame's payload cannot be read in full or cannot be decoded, and that a
record is appended to the live list only when its payload decoded
successfully.  The code does neither: on the file `[8,0,0,0,1,2,3]` (a
header declaring an 8-byte payload followed by only 3 payload bytes) with a
decoder that rejects every payload, `qSegment.load` succeeds — the short
read goes undetected (the Go `Read(gobBytes)` error is nil), the
`gob.Decoder.Decode` error is dropped, and the builder's object is appended
to the live list anyway. -/
theorem load_accepts_undecodable_payload :
    loadBytes decNone 42 [8, 0, 0, 0, 1, 2, 3] = LoadResult.ok [42] 0 := by
  decide

/-! ## Claim C10: segment number zero is treated as no segment -/

theorem foldl_max_zero (l : List Nat) (h : ∀ x ∈ l, x = 0) : l.foldl max 0 = 0 := by
  induction l with
  | nil => rfl
  | cons x t ih =>
    have hx : x = 0 := h x (by simp)
    subst hx
    simpa using ih (fun x hx => h x (by simp [hx]))

/-- C10: `DQue.load` decides that segment files were found by testing
`maxNum > 0`, so when every matching file in the queue directory parses to
number 0, `Open` ignores those files and creates a fresh segment numbered 1
as both head and tail (writing its empty file) instead of replaying them. -/
theorem open_ignores_zero_numbered_files (fs : Fsys) (name dirPath : FPath)
    (ips : Nat) (hn : ¬ name.length = 0) (hd : ¬ dirPath.length = 0)
    (hdir : dirPath ∈ fs.dirs) (hfp : pjoin dirPath name ∈ fs.dirs)
    (hz : ∀ nm ∈ entriesUnder fs (pjoin dirPath name),
        parseDque nm = some 0 ∨ parseDque nm = none) :
    OpenQ fs name dirPath ips =
      (QRes.ok LoadOutcome.freshSeg1,
        { fs with files := fs.files ++ [pjoin dirPath name ++ '/' :: segFileName 1] }) := by
  have hdec : dqueLoadDecision (entriesUnder fs (pjoin dirPath name)) =
      LoadOutcome.freshSeg1 := by
    have hall : ∀ x ∈ (entriesUnder fs (pjoin dirPath name)).filterMap parseDque,
        x = 0 := by
      intro x hx
      rcases List.mem_filterMap.mp hx with ⟨nm, hnm, hp⟩
      rcases hz nm hnm with h0 | h0 <;> rw [h0] at hp
      · exact (Option.some.injEq .. ▸ hp).symm
      · cases hp
    simp only [dqueLoadDecision]
    rw [foldl_max_zero _ hall]
    simp
  unfold OpenQ
  rw [if_neg hn, if_neg hd, if_neg (by simpa using hdir),
    if_neg (by simpa using hfp), hdec]
  rfl

/-- Witness for C10: a queue directory containing only
`0000000000000.dque`. -/
theorem open_ignores_zero_numbered_files_witness :
    OpenQ fs10 ['q'] ['d'] 3 =
      (QRes.ok LoadOutcome.freshSeg1,
        { fs10 with files := fs10.files ++ [pjoin ['d'] ['q'] ++ '/' :: segFileName 1] }) :=
  open_ignores_zero_numbered_files fs10 ['q'] ['d'] 3 (by decide) (by decide)
    (by decide) (by decide) (by decide)

/-! ## Claim C8: construction validation -/

/-- C8 (amended): `New`, `Open` and `NewOrOpen` return a validation error —
with the file system unchanged, since the checks precede `os.Mkdir` and
`q.load()` — exactly when the name is empty, the parent directory path is
empty or does not exist, the queue directory already exists (for `New`), or
the queue directory does not exist (for `Open`).  A zero `itemsPerSegment`
is NOT validated: it is accepted unchecked (see the counterexample). -/
theorem construction_validation (fs : Fsys) (name dirPath : FPath) (ips : Nat) :
    ((∃ e, NewQ fs name dirPath ips = (QRes.err e, fs)) ↔
      (name = [] ∨ dirPath = [] ∨ ¬ dirPath ∈ fs.dirs ∨ pjoin dirPath name ∈ fs.dirs)) ∧
    ((∃ e, OpenQ fs name dirPath ips = (QRes.err e, fs)) ↔
      (name = [] ∨ dirPath = [] ∨ ¬ dirPath ∈ fs.dirs ∨ ¬ pjoin dirPath name ∈ fs.dirs)) ∧
    ((∃ e, NewOrOpenQ fs name dirPath ips = (QRes.err e, fs)) ↔
      (name = [] ∨ dirPath = [] ∨ ¬ dirPath ∈ fs.dirs)) := by
  refine ⟨?_, ?_, ?_⟩
  · unfold NewQ
    split_ifs <;> (simp_all [List.length_eq_zero]; try tauto)
  · unfold OpenQ
    split_ifs <;> (simp_all [List.length_eq_zero]; try tauto)
  · unfold NewOrOpenQ NewQ OpenQ
    split_ifs <;> (simp_all [List.length_eq_zero]; try tauto)

/-- C8, as stated, is false for the `items_per_segment = 0` clause: with a
valid name and directory, `New` with `itemsPerSegment = 0` succeeds and
creates the queue directory and segment file 1 instead of returning a
validation error. -/
theorem construction_validation_counterexample :
    NewQ fs8 ['q'] ['d'] 0 =
      (QRes.ok LoadOutcome.freshSeg1,
        ⟨[['d'], pjoin ['d'] ['q']], [pjoin ['d'] ['q'] ++ '/' :: segFileName 1]⟩) := by
  decide

/-- Witness for the amended C8: an empty name is rejected with the file
system untouched. -/
theorem construction_validation_witness :
    ∃ e, NewQ fs8 [] ['d'] 5 = (QRes.err e, fs8) :=
  (construction_validation fs8 [] ['d'] 5).1.mpr (Or.inl rfl)

/-! ## Claim C9: the tombstone pop in replay is unguarded -/

theorem decodeLE32_encodeLE32 (n : Nat) (h : n < 4294967296) :
    decodeLE32 (encodeLE32 n) = n := by
  simp [decodeLE32, encodeLE32]
  omega

theorem loadLoop_tomb_step {α : Type} (decode : List Nat → Option α) (mk : α)
    (fuel : Nat) (o : α) (tl : List α) (rc : Nat) (E : List Nat) :
    loadLoop decode mk (fuel + 1) (o :: tl) rc (0 :: 0 :: 0 :: 0 :: E) =
      loadLoop decode mk fuel tl (rc + 1) E := by
  rw [loadLoop]
  rw [if_neg (by simp)]
  norm_num [decodeLE32]

theorem loadLoop_data_step {α : Type} (decode : List Nat → Option α) (mk : α)
    (fuel : Nat) (objs : List α) (rc : Nat) (p E : List Nat)
    (hp : p ≠ []) (hlt : p.length < 4294967296) :
    loadLoop decode mk (fuel + 1) objs rc (encodeLE32 p.length ++ (p ++ E)) =
      loadLoop decode mk fuel (objs ++ [(decode p).getD mk]) rc E := by
  obtain ⟨b0, b1, b2, b3, henc⟩ :
      ∃ b0 b1 b2 b3, encodeLE32 p.length = [b0, b1, b2, b3] := ⟨_, _, _, _, rfl⟩
  have hdec : decodeLE32 [b0, b1, b2, b3] = p.length := by
    rw [← henc]; exact decodeLE32_encodeLE32 p.length hlt
  rw [henc]
  show loadLoop decode mk (fuel + 1) objs rc (b0 :: b1 :: b2 :: b3 :: (p ++ E)) = _
  rw [loadLoop]
  rw [if_neg (by simp)]
  have htake : (b1 :: b2 :: b3 :: (p ++ E)).take 3 = [b1, b2, b3] := rfl
  have hdrop : (b1 :: b2 :: b3 :: (p ++ E)).drop 3 = p ++ E := rfl
  simp only [List.take_succ_cons, List.drop_succ_cons, htake, hdrop, hdec]
  rw [if_neg (by simpa using hp)]
  have hie : (p ++ E).isEmpty = false := by
    cases p with
    | nil => exact absurd rfl hp
    | cons a l => rfl
  rw [hie]
  have hgob : (p ++ E).take p.length ++
      List.replicate (p.length - (p ++ E).length) 0 = p := by
    rw [List.take_left, List.length_append,
      Nat.sub_eq_zero_of_le (Nat.le_add_right _ _)]
    simp
  rw [if_neg (by simp)]
  rw [hgob, List.drop_left]

theorem loadLoop_encode_no_panic {α : Type} (decode : List Nat → Option α)
    (mk : α) (fs : List (Frame (List Nat))) :
    ∀ (fuel : Nat) (objs : List α) (rc : Nat),
      (∀ x ∈ fs, goodPayload x) →
      (∀ n, tombCount (fs.take n) ≤ dataCount (fs.take n) + objs.length) →
      (encodeFrames fs).length ≤ fuel →
      loadLoop decode mk fuel objs rc (encodeFrames fs) ≠ LoadResult.panicked := by
  induction fs with
  | nil =>
    intro fuel objs rc _ _ _
    cases fuel <;> simp [encodeFrames, loadLoop]
  | cons x rest ih =>
    intro fuel objs rc hwf hpre hfuel
    cases x with
    | none =>
      have hlen : (encodeFrames (none :: rest)).length =
          4 + (encodeFrames rest).length := by simp [encodeFrames]; omega
      obtain ⟨fuel', rfl⟩ : ∃ f', fuel = f' + 1 := ⟨fuel - 1, by omega⟩
      have h1 := hpre 1
      simp [tombCount, dataCount] at h1
      obtain ⟨o, tl, rfl⟩ : ∃ o tl, objs = o :: tl := by
        cases objs with
        | nil => simp at h1
        | cons o tl => exact ⟨o, tl, rfl⟩
      show loadLoop decode mk (fuel' + 1) (o :: tl) rc
          (0 :: 0 :: 0 :: 0 :: encodeFrames rest) ≠ _
      rw [loadLoop_tomb_step]
      refine ih fuel' tl (rc + 1) (fun x hm => hwf x (by simp [hm])) ?_ (by omega)
      intro n
      have := hpre (n + 1)
      simp [tombCount, dataCount, List.filterMap] at this ⊢
      omega
    | some p =>
      have hwfp : p ≠ [] ∧ p.length < 4294967296 := hwf (some p) (by simp)
      have hlen : (encodeFrames (some p :: rest)).length =
          4 + p.length + (encodeFrames rest).length := by
        simp [encodeFrames, encodeLE32]
        omega
      obtain ⟨fuel', rfl⟩ : ∃ f', fuel = f' + 1 := ⟨fuel - 1, by omega⟩
      show loadLoop decode mk (fuel' + 1) objs rc
          (encodeLE32 p.length ++ (p ++ encodeFrames rest)) ≠ _
      rw [loadLoop_data_step decode mk fuel' objs rc p (encodeFrames rest)
        hwfp.1 hwfp.2]
      refine ih fuel' (objs ++ [(decode p).getD mk]) rc
        (fun x hm => hwf x (by simp [hm])) ?_ (by omega)
      intro n
      have := hpre (n + 1)
      simp [tombCount, dataCount, List.filterMap] at this ⊢
      omega

/-- C9: during replay a tombstone frame is handled by unconditionally
dropping the first element of the in-memory live list.  On the file whose
first frame is a tombstone (`[0,0,0,0]`) the pop hits an empty list and
`qSegment.load` panics, so load is not total over arbitrary segment files;
under the precondition that in every prefix of the file the tombstone
frames never outnumber the data frames, the pop is always guarded and load
never panics. -/
theorem load_tombstone_pop_unguarded {α : Type} (decode : List Nat → Option α)
    (mk : α) (fs : List (Frame (List Nat)))
    (hwf : ∀ x ∈ fs, goodPayload x)
    (hpre : ∀ n, n ≤ fs.length → tombCount (fs.take n) ≤ dataCount (fs.take n)) :
    loadBytes decode mk [0, 0, 0, 0] = LoadResult.panicked ∧
      loadBytes decode mk (encodeFrames fs) ≠ LoadResult.panicked := by
  constructor
  · rfl
  · have hpre' : ∀ n, tombCount (fs.take n) ≤ dataCount (fs.take n) + ([] : List α).length := by
      intro n
      by_cases h : n ≤ fs.length
      · simpa using hpre n h
      · rw [List.take_of_length_le (by omega)]
        simpa using hpre fs.length (by omega)
    exact loadLoop_encode_no_panic decode mk fs (encodeFrames fs).length [] 0
      hwf hpre' le_rfl

/-- Witness for C9 at a concrete decoder and frame list. -/
theorem load_tombstone_pop_unguarded_witness :
    loadBytes decNone 0 [0, 0, 0, 0] = LoadResult.panicked ∧
      loadBytes decNone 0 (encodeFrames fs9frames) ≠ LoadResult.panicked :=
  load_tombstone_pop_unguarded decNone 0 fs9frames (by decide) (by decide)

/-! ## Queue step lemmas -/

theorem range'_concat_one (s n : Nat) :
    List.range' s (n + 1) = List.range' s n ++ [s + n] := by
  simpa using @List.range'_concat 1 s n

theorem segAcct_add {α : Type} (s : Seg α) (a : α) (h : segAcct s) :
    segAcct (s.add a) := by
  obtain ⟨hd, ht⟩ := h
  constructor
  · show dataCount (s.frames ++ [some a]) = (s.objects ++ [a]).length + s.removeCount
    rw [dataCount_append, dataCount_some_one, hd]
    simp
    omega
  · show tombCount (s.frames ++ [some a]) = s.removeCount
    rw [tombCount_append, tombCount_some_zero, ht]
    omega

theorem segAcct_remove {α : Type} (s : Seg α) (a : α) (s₂ : Seg α)
    (h : segAcct s) (hrem : s.remove = some (a, s₂)) : segAcct s₂ := by
  obtain ⟨hd, ht⟩ := h
  rcases hos : s.objects with _ | ⟨o, tl⟩ <;> rw [Seg.remove, hos] at hrem
  · exact absurd hrem (by simp)
  · simp only [Option.some.injEq, Prod.mk.injEq] at hrem
    obtain ⟨-, hseg⟩ := hrem
    subst hseg
    constructor
    · show dataCount (s.frames ++ [none]) = tl.length + (s.removeCount + 1)
      rw [dataCount_append, dataCount_none_zero, hd, hos]
      simp
      omega
    · show tombCount (s.frames ++ [none]) = s.removeCount + 1
      rw [tombCount_append, tombCount_none_one, ht]

theorem segAcct_of_map_some {α : Type} (l : Seg α)
    (hf : l.frames = l.objects.map some) (hrc : l.removeCount = 0) :
    segAcct l := by
  constructor
  · rw [hf, hrc]
    show dataCount (l.objects.map some) = l.objects.length + 0
    rw [dataCount_map_some]
    omega
  · rw [hf, hrc]
    exact tombCount_allSome _ (by simp)

/-- Effect of one `Enqueue` on a well-formed queue: well-formedness is
preserved and the record is appended to the queue contents. -/
theorem enqueue_step {α : Type} (q : DQue α) (a : α) (hwf : WF q) :
    WF (enqueue q a) ∧ contents (enqueue q a) = contents q ++ [a] ∧
      (enqueue q a).ips = q.ips := by
  rcases q with ⟨ips, f, ms, lo⟩
  obtain ⟨hacct, hrest⟩ := hwf
  cases lo with
  | none =>
    have hms : ms = [] := hrest
    subst hms
    by_cases h : ips ≤ f.sizeOnDisk
    · have he : enqueue ⟨ips, f, [], none⟩ a =
          ⟨ips, f, [], some ⟨f.number + 1, [a], 0, [some a]⟩⟩ := by
        simp [enqueue, rollIfFull, addToLast, lastSeg, h, newSeg, Seg.add]
      rw [he]
      refine ⟨⟨hacct, by simp, rfl, by simp, by simp, by simp⟩, ?_, rfl⟩
      simp [contents]
    · have he : enqueue ⟨ips, f, [], none⟩ a = ⟨ips, f.add a, [], none⟩ := by
        simp [enqueue, rollIfFull, addToLast, lastSeg, h]
      rw [he]
      refine ⟨⟨segAcct_add f a hacct, rfl⟩, ?_, rfl⟩
      simp [contents, Seg.add]
  | some l =>
    obtain ⟨hlf, hlrc, hmall, hmnum, hln⟩ := hrest
    dsimp only at hacct hmall hmnum hln
    by_cases h : ips ≤ l.sizeOnDisk
    · have he : enqueue ⟨ips, f, ms, some l⟩ a =
          ⟨ips, f, ms ++ [(l.number, l.frames)],
            some ⟨l.number + 1, [a], 0, [some a]⟩⟩ := by
        simp [enqueue, rollIfFull, addToLast, lastSeg, h, newSeg, Seg.add]
      rw [he]
      refine ⟨⟨hacct, by simp, rfl, ?_, ?_, ?_⟩, ?_, rfl⟩
      · intro p hp x hx
        rcases List.mem_append.mp hp with h1 | h1
        · exact hmall p h1 x hx
        · simp at h1
          subst h1
          rw [hlf] at hx
          rcases List.mem_map.mp hx with ⟨y, -, rfl⟩
          rfl
      · show (ms ++ [(l.number, l.frames)]).map Prod.fst =
            List.range' (f.number + 1) (ms ++ [(l.number, l.frames)]).length
        rw [List.map_append, hmnum]
        simp [range'_concat_one]
        omega
      · show l.number + 1 = f.number + 1 + (ms ++ [(l.number, l.frames)]).length
        simp
        omega
      · show contents ⟨ips, f, ms ++ [(l.number, l.frames)],
            some ⟨l.number + 1, [a], 0, [some a]⟩⟩ =
          contents ⟨ips, f, ms, some l⟩ ++ [a]
        simp [contents, hlf, List.filterMap_map]
    · have he : enqueue ⟨ips, f, ms, some l⟩ a =
          ⟨ips, f, ms, some (l.add a)⟩ := by
        simp [enqueue, rollIfFull, addToLast, lastSeg, h]
      rw [he]
      refine ⟨⟨hacct, ?_, hlrc, hmall, hmnum, ?_⟩, ?_, rfl⟩
      · show l.frames ++ [some a] = (l.objects ++ [a]).map some
        rw [hlf, List.map_append]
        rfl
      · show l.number = f.number + 1 + ms.length
        exact hln
      · simp [contents, Seg.add]

/-- Effect of one `Dequeue` on a well-formed queue: either the queue's
first segment was live-empty and the call returns `ErrEmpty` with the state
unchanged, or the dequeue succeeds, well-formedness is preserved and the
returned record was the head of the queue contents.  In particular the
"inconsistent state" error paths are unreachable from well-formed states. -/
theorem dequeue_step {α : Type} (q : DQue α) (hwf : WF q) :
    (q.firstSegment.objects = [] ∧ dequeue q = (DeqRes.empty, q)) ∨
      (∃ a q', dequeue q = (DeqRes.ok a, q') ∧ WF q' ∧
        contents q = a :: contents q' ∧ q'.ips = q.ips) := by
  rcases q with ⟨ips, f, ms, lo⟩
  obtain ⟨hacct, hrest⟩ := hwf
  rcases hof : f.objects with _ | ⟨a, tl⟩
  · left
    exact ⟨by simp [hof], by simp [dequeue, Seg.remove, hof]⟩
  · right
    have hrem : Seg.remove f =
        some (a, ⟨f.number, tl, f.removeCount + 1, f.frames ++ [none]⟩) := by
      rw [Seg.remove, hof]
    by_cases hc : tl = [] ∧ ips ≤ tl.length + (f.removeCount + 1)
    · obtain ⟨htl, hc2⟩ := hc
      subst htl
      simp only [List.length_nil, Nat.zero_add] at hc2
      cases lo with
      | none =>
        have hms : ms = [] := hrest
        subst hms
        refine ⟨a, ⟨ips, ⟨f.number + 1, [], 0, []⟩, [], none⟩, ?_,
          ⟨⟨rfl, rfl⟩, rfl⟩, ?_, rfl⟩
        · simp [dequeue, hrem, advanceHead, newSeg, Seg.size, Seg.sizeOnDisk, hc2]
        · simp [contents, hof]
      | some l =>
        obtain ⟨hlf, hlrc, hmall, hmnum, hln⟩ := hrest
        dsimp only at hacct hmall hmnum hln
        by_cases hadj : f.number + 1 = l.number
        · have hms : ms = [] := by
            have : ms.length = 0 := by omega
            exact List.length_eq_zero.mp this
          subst hms
          refine ⟨a, ⟨ips, l, [], none⟩, ?_,
            ⟨segAcct_of_map_some l hlf hlrc, rfl⟩, ?_, rfl⟩
          · simp [dequeue, hrem, advanceHead, Seg.size, Seg.sizeOnDisk, hc2, hadj]
          · simp [contents, hof]
        · rcases hms0 : ms with _ | ⟨⟨n0, fr⟩, rest⟩
          · rw [hms0] at hln
            simp at hln
            omega
          · rw [hms0] at hmall hmnum hln
            have hn0 : n0 = f.number + 1 := by
              simp [List.range'_succ] at hmnum
              exact hmnum.1
            subst hn0
            have hmtail : rest.map Prod.fst =
                List.range' (f.number + 1 + 1) rest.length := by
              simp [List.range'_succ] at hmnum
              exact hmnum
            have hfind : List.find? (fun p => p.1 == f.number + 1)
                ((f.number + 1, fr) :: rest) = some (f.number + 1, fr) :=
              List.find?_cons_of_pos _ (by simp)
            have herase : List.eraseP (fun p => p.1 == f.number + 1)
                ((f.number + 1, fr) :: rest) = rest :=
              List.eraseP_cons_of_pos (by simp)
            have hrep : replay fr = some (fr.filterMap id, 0) :=
              replay_allSome fr (hmall (f.number + 1, fr) (by simp))
            refine ⟨a, ⟨ips, ⟨f.number + 1, fr.filterMap id, 0, fr⟩, rest, some l⟩,
              ?_, ?_, ?_, rfl⟩
            · simp [dequeue, hrem, Seg.size, Seg.sizeOnDisk, hc2, advanceHead,
                hadj, hms0, hfind, herase, hrep]
            · refine ⟨⟨by simp [dataCount], tombCount_allSome fr
                (hmall (f.number + 1, fr) (by simp))⟩, hlf, hlrc, ?_, ?_, ?_⟩
              · intro p hp x hx
                exact hmall p (by simp [hp]) x hx
              · exact hmtail
              · show l.number = f.number + 1 + 1 + rest.length
                simp at hln
                omega
            · simp [contents, hof, hms0]
    · have hd : dequeue ⟨ips, f, ms, lo⟩ =
          (DeqRes.ok a,
            ⟨ips, ⟨f.number, tl, f.removeCount + 1, f.frames ++ [none]⟩, ms, lo⟩) := by
        simp [dequeue, hrem, Seg.size, Seg.sizeOnDisk, hc]
      refine ⟨a, ⟨ips, ⟨f.number, tl, f.removeCount + 1, f.frames ++ [none]⟩, ms, lo⟩,
        hd, ⟨segAcct_remove f a _ hacct hrem, hrest⟩, ?_, rfl⟩
      simp [contents, hof]

theorem WF_freshQ {α : Type} (ips : Nat) : WF (freshQ (α := α) ips) :=
  ⟨⟨rfl, rfl⟩, rfl⟩

theorem deq_enq_trace {α : Type} (ops : List (Op α)) :
    ∀ q : DQue α, WF q →
      deqList ops q ++ contents (runQ ops q) = contents q ++ enqList ops := by
  induction ops with
  | nil => intro q hwf; simp [deqList, runQ, enqList]
  | cons op ops ih =>
    intro q hwf
    cases op with
    | enq a =>
      obtain ⟨hwf', hc, -⟩ := enqueue_step q a hwf
      show deqList ops (enqueue q a) ++ contents (runQ ops (enqueue q a)) =
        contents q ++ enqList (Op.enq a :: ops)
      rw [ih (enqueue q a) hwf', hc]
      simp [enqList]
    | deq =>
      rcases dequeue_step q hwf with ⟨-, hd⟩ | ⟨a, q', hd, hwf', hc, -⟩
      · show (match dequeue q with
            | (DeqRes.ok a, q') => a :: deqList ops q'
            | (_, q') => deqList ops q') ++ contents (runQ ops (dequeue q).2) =
          contents q ++ enqList (Op.deq :: ops)
        rw [hd]
        show deqList ops q ++ contents (runQ ops q) = contents q ++ enqList (Op.deq :: ops)
        rw [ih q hwf]
        simp [enqList]
      · show (match dequeue q with
            | (DeqRes.ok a, q') => a :: deqList ops q'
            | (_, q') => deqList ops q') ++ contents (runQ ops (dequeue q).2) =
          contents q ++ enqList (Op.deq :: ops)
        rw [hd]
        show a :: deqList ops q' ++ contents (runQ ops q') = contents q ++ enqList (Op.deq :: ops)
        rw [List.cons_append, ih q' hwf', hc]
        simp [enqList]

/-! ## Claim C1: FIFO -/

/-- C1 (FIFO): for every sequence of `Enqueue` / `Dequeue` operations run
serially from a fresh queue, the records returned by the successful
`Dequeue` calls followed by the records still in the queue equal the
records passed to `Enqueue`, in order.  Hence the dequeued sequence is a
prefix of the enqueued sequence — each enqueued record is returned by
exactly one successful `Dequeue` (and by none only while it is still
queued), and draining the queue returns exactly the enqueued sequence. -/
theorem fifo_trace {α : Type} (ips : Nat) (ops : List (Op α)) :
    deqList ops (freshQ ips) ++ contents (runQ ops (freshQ ips)) = enqList ops := by
  have h := deq_enq_trace ops (freshQ ips) (WF_freshQ ips)
  simpa [contents, freshQ, newSeg] using h

/-! ## Claim C3: reclamation -/

/-- C3: after every successful `Dequeue` whose remove yielded `(a, f)`, if
and only if the first segment's live count is now 0 and its `sizeOnDisk`
has reached `ItemsPerSegment`, the head file is deleted and the head is
replaced — a fresh segment numbered `head.number + 1` when head and tail
were the same segment, the tail when `head.number + 1 = tail.number`, and
otherwise the replayed on-disk segment numbered `head.number + 1`; a head
segment that is live-empty but below the threshold is retained together
with its file. -/
theorem dequeue_reclamation {α : Type} (q : DQue α) (hwf : WF q) (a : α)
    (f : Seg α) (hrem : Seg.remove q.firstSegment = some (a, f)) :
    ReclaimSpec q a f := by
  rcases q with ⟨ips, f0, ms, lo⟩
  obtain ⟨hacct, hrest⟩ := hwf
  dsimp only at hacct hrest hrem ⊢
  rcases hof : f0.objects with _ | ⟨b, tl⟩ <;> rw [Seg.remove, hof] at hrem
  · exact absurd hrem (by simp)
  · simp only [Option.some.injEq, Prod.mk.injEq] at hrem
    obtain ⟨rfl, rfl⟩ := hrem
    have hrem' : Seg.remove f0 =
        some (b, ⟨f0.number, tl, f0.removeCount + 1, f0.frames ++ [none]⟩) := by
      rw [Seg.remove, hof]
    by_cases hc : tl = [] ∧ ips ≤ tl.length + (f0.removeCount + 1)
    · obtain ⟨htl, hc2⟩ := hc
      subst htl
      simp only [List.length_nil, Nat.zero_add] at hc2
      have hcond : (⟨f0.number, [], f0.removeCount + 1, f0.frames ++ [none]⟩ :
          Seg α).size = 0 ∧
          ips ≤ (⟨f0.number, [], f0.removeCount + 1, f0.frames ++ [none]⟩ :
            Seg α).sizeOnDisk := by
        constructor
        · rfl
        · show ips ≤ [].length + (f0.removeCount + 1)
          simpa using hc2
      cases lo with
      | none =>
        have hms : ms = [] := hrest
        subst hms
        have hd : dequeue ⟨ips, f0, [], none⟩ =
            (DeqRes.ok b, ⟨ips, ⟨f0.number + 1, [], 0, []⟩, [], none⟩) := by
          simp [dequeue, hrem', advanceHead, newSeg, Seg.size, Seg.sizeOnDisk, hc2]
        refine ⟨by rw [hd], ?_⟩
        rw [if_pos hcond, hd]
        refine ⟨?_, rfl, rfl⟩
        simp [diskFiles]
      | some l =>
        obtain ⟨hlf, hlrc, hmall, hmnum, hln⟩ := hrest
        by_cases hadj : f0.number + 1 = l.number
        · have hms : ms = [] := by
            have : ms.length = 0 := by omega
            exact List.length_eq_zero.mp this
          subst hms
          have hd : dequeue ⟨ips, f0, [], some l⟩ =
              (DeqRes.ok b, ⟨ips, l, [], none⟩) := by
            simp [dequeue, hrem', advanceHead, Seg.size, Seg.sizeOnDisk, hc2, hadj]
          refine ⟨by rw [hd], ?_⟩
          rw [if_pos hcond, hd]
          dsimp only
          rw [if_pos hadj]
          refine ⟨?_, rfl, rfl⟩
          simp [diskFiles]
          omega
        · rcases hms0 : ms with _ | ⟨⟨n0, fr⟩, rest⟩
          · rw [hms0] at hln
            simp at hln
            omega
          · rw [hms0] at hmall hmnum hln
            have hn0 : n0 = f0.number + 1 := by
              simp [List.range'_succ] at hmnum
              exact hmnum.1
            subst hn0
            have hmtail : rest.map Prod.fst =
                List.range' (f0.number + 1 + 1) rest.length := by
              simp [List.range'_succ] at hmnum
              exact hmnum
            have hfind : List.find? (fun p => p.1 == f0.number + 1)
                ((f0.number + 1, fr) :: rest) = some (f0.number + 1, fr) :=
              List.find?_cons_of_pos _ (by simp)
            have herase : List.eraseP (fun p => p.1 == f0.number + 1)
                ((f0.number + 1, fr) :: rest) = rest :=
              List.eraseP_cons_of_pos (by simp)
            have hrep : replay fr = some (fr.filterMap id, 0) :=
              replay_allSome fr (hmall (f0.number + 1, fr) (by simp))
            have hd : dequeue ⟨ips, f0, (f0.number + 1, fr) :: rest, some l⟩ =
                (DeqRes.ok b, ⟨ips, ⟨f0.number + 1, fr.filterMap id, 0, fr⟩,
                  rest, some l⟩) := by
              simp [dequeue, hrem', Seg.size, Seg.sizeOnDisk, hc2, advanceHead,
                hadj, hfind, herase, hrep]
            refine ⟨by rw [hd], ?_⟩
            rw [if_pos hcond, hd]
            dsimp only
            rw [if_neg hadj]
            refine ⟨?_, fr, by simp, rfl, rfl, ?_, rfl⟩
            · show ¬ f0.number ∈ ((f0.number + 1, fr) ::
                  (rest ++ [(l.number, l.frames)])).map Prod.fst
              have hln' : l.number = f0.number + rest.length + 2 := by
                simp at hln
                omega
              intro hmem
              rw [List.map_cons, List.map_append, hmtail] at hmem
              rcases List.mem_cons.mp hmem with h1 | h1
              · omega
              · rcases List.mem_append.mp h1 with h2 | h2
                · rw [List.mem_range'] at h2
                  obtain ⟨i, -, hi⟩ := h2
                  omega
                · simp at h2
                  omega
            · exact hrep
    · have hd : dequeue ⟨ips, f0, ms, lo⟩ =
          (DeqRes.ok b,
            ⟨ips, ⟨f0.number, tl, f0.removeCount + 1, f0.frames ++ [none]⟩, ms, lo⟩) := by
        simp [dequeue, hrem', Seg.size, Seg.sizeOnDisk, hc]
      have hcond : ¬ ((⟨f0.number, tl, f0.removeCount + 1, f0.frames ++ [none]⟩ :
          Seg α).size = 0 ∧
          ips ≤ (⟨f0.number, tl, f0.removeCount + 1, f0.frames ++ [none]⟩ :
            Seg α).sizeOnDisk) := by
        show ¬ (tl.length = 0 ∧ ips ≤ tl.length + (f0.removeCount + 1))
        intro h'
        exact hc ⟨List.length_eq_zero.mp h'.1, h'.2⟩
      refine ⟨by rw [hd], ?_⟩
      rw [if_neg hcond, hd]
      refine ⟨rfl, rfl, ?_⟩
      simp [diskFiles]

/-- Witness for C3 at a concrete one-segment queue whose single record is
dequeued (the fresh-segment reclamation branch fires). -/
theorem dequeue_reclamation_witness :
    Seg.remove cq3.firstSegment = some (5, cf3) ∧ ReclaimSpec cq3 5 cf3 :=
  ⟨by decide, dequeue_reclamation cq3 (by decide) 5 cf3 (by decide)⟩

/-! ## Boundedness lemmas for claim C4 -/

theorem enqueue_bounded {α : Type} (q : DQue α) (a : α) (h1 : 1 ≤ q.ips)
    (hwf : WF q) (hb : Bounded q) : Bounded (enqueue q a) := by
  rcases q with ⟨ips, f, ms, lo⟩
  obtain ⟨hacct, hrest⟩ := hwf
  dsimp only at h1 hacct
  cases lo with
  | none =>
    have hms : ms = [] := hrest
    subst hms
    by_cases h : ips ≤ f.sizeOnDisk
    · have he : enqueue ⟨ips, f, [], none⟩ a =
          ⟨ips, f, [], some ⟨f.number + 1, [a], 0, [some a]⟩⟩ := by
        simp [enqueue, rollIfFull, addToLast, lastSeg, h, newSeg, Seg.add]
      rw [he]
      intro p hp
      simp only [diskFiles, List.nil_append, List.mem_cons, List.mem_singleton,
        List.not_mem_nil, or_false] at hp
      rcases hp with h' | h'
      · subst h'
        exact hb (f.number, f.frames) (by simp [diskFiles])
      · subst h'
        show 1 ≤ ips
        exact h1
    · have he : enqueue ⟨ips, f, [], none⟩ a = ⟨ips, f.add a, [], none⟩ := by
        simp [enqueue, rollIfFull, addToLast, lastSeg, h]
      rw [he]
      intro p hp
      simp only [diskFiles, Seg.add, List.append_nil, List.mem_singleton,
        List.mem_cons, List.not_mem_nil, or_false] at hp
      subst hp
      show dataCount (f.frames ++ [some a]) ≤ ips
      rw [dataCount_append, dataCount_some_one]
      have hsd : f.sizeOnDisk < ips := by omega
      rw [Seg.sizeOnDisk] at hsd
      omega
  | some l =>
    obtain ⟨hlf, hlrc, hmall, hmnum, hln⟩ := hrest
    dsimp only at hmall hmnum hln
    by_cases h : ips ≤ l.sizeOnDisk
    · have he : enqueue ⟨ips, f, ms, some l⟩ a =
          ⟨ips, f, ms ++ [(l.number, l.frames)],
            some ⟨l.number + 1, [a], 0, [some a]⟩⟩ := by
        simp [enqueue, rollIfFull, addToLast, lastSeg, h, newSeg, Seg.add]
      rw [he]
      intro p hp
      simp only [diskFiles, List.mem_cons, List.mem_append,
        List.mem_singleton, List.not_mem_nil, or_false] at hp
      rcases hp with h' | (h' | h') | h'
      · subst h'
        exact hb (f.number, f.frames) (by simp [diskFiles])
      · exact hb p (by simp [diskFiles, h'])
      · subst h'
        exact hb (l.number, l.frames) (by simp [diskFiles])
      · subst h'
        show 1 ≤ ips
        exact h1
    · have he : enqueue ⟨ips, f, ms, some l⟩ a =
          ⟨ips, f, ms, some (l.add a)⟩ := by
        simp [enqueue, rollIfFull, addToLast, lastSeg, h]
      rw [he]
      intro p hp
      simp only [diskFiles, Seg.add, List.mem_cons, List.mem_append,
        List.mem_singleton, List.not_mem_nil, or_false] at hp
      rcases hp with h' | h' | h'
      · subst h'
        exact hb (f.number, f.frames) (by simp [diskFiles])
      · exact hb p (by simp [diskFiles, h'])
      · subst h'
        show dataCount (l.frames ++ [some a]) ≤ ips
        rw [dataCount_append, dataCount_some_one]
        have hdl : dataCount l.frames = l.objects.length := by
          rw [hlf, dataCount_map_some]
        have hsd : l.sizeOnDisk < ips := by omega
        rw [Seg.sizeOnDisk, hlrc] at hsd
        omega

theorem dequeue_bounded {α : Type} (q : DQue α) (hwf : WF q) (hb : Bounded q) :
    Bounded (dequeue q).2 := by
  rcases q with ⟨ips, f, ms, lo⟩
  obtain ⟨hacct, hrest⟩ := hwf
  rcases hof : f.objects with _ | ⟨a, tl⟩
  · rw [show dequeue ⟨ips, f, ms, lo⟩ = (DeqRes.empty, ⟨ips, f, ms, lo⟩) from
      by simp [dequeue, Seg.remove, hof]]
    exact hb
  · have hrem : Seg.remove f =
        some (a, ⟨f.number, tl, f.removeCount + 1, f.frames ++ [none]⟩) := by
      rw [Seg.remove, hof]
    by_cases hc : tl = [] ∧ ips ≤ tl.length + (f.removeCount + 1)
    · obtain ⟨htl, hc2⟩ := hc
      subst htl
      simp only [List.length_nil, Nat.zero_add] at hc2
      cases lo with
      | none =>
        have hms : ms = [] := hrest
        subst hms
        rw [show dequeue ⟨ips, f, [], none⟩ =
            (DeqRes.ok a, ⟨ips, ⟨f.number + 1, [], 0, []⟩, [], none⟩) from
          by simp [dequeue, hrem, advanceHead, newSeg, Seg.size, Seg.sizeOnDisk, hc2]]
        intro p hp
        simp only [diskFiles, List.append_nil, List.mem_singleton,
          List.mem_cons, List.not_mem_nil, or_false] at hp
        subst hp
        show dataCount ([] : List (Frame α)) ≤ ips
        simp [dataCount]
      | some l =>
        obtain ⟨hlf, hlrc, hmall, hmnum, hln⟩ := hrest
        dsimp only at hmall hmnum hln
        by_cases hadj : f.number + 1 = l.number
        · have hms : ms = [] := by
            have : ms.length = 0 := by omega
            exact List.length_eq_zero.mp this
          subst hms
          rw [show dequeue ⟨ips, f, [], some l⟩ = (DeqRes.ok a, ⟨ips, l, [], none⟩) from
            by simp [dequeue, hrem, advanceHead, Seg.size, Seg.sizeOnDisk, hc2, hadj]]
          intro p hp
          simp only [diskFiles, List.append_nil, List.mem_singleton,
            List.mem_cons, List.not_mem_nil, or_false] at hp
          subst hp
          exact hb (l.number, l.frames) (by simp [diskFiles])
        · rcases hms0 : ms with _ | ⟨⟨n0, fr⟩, rest⟩
          · rw [hms0] at hln
            simp at hln
            omega
          · rw [hms0] at hmall hmnum hln
            have hn0 : n0 = f.number + 1 := by
              simp [List.range'_succ] at hmnum
              exact hmnum.1
            subst hn0
            have hfind : List.find? (fun p => p.1 == f.number + 1)
                ((f.number + 1, fr) :: rest) = some (f.number + 1, fr) :=
              List.find?_cons_of_pos _ (by simp)
            have herase : List.eraseP (fun p => p.1 == f.number + 1)
                ((f.number + 1, fr) :: rest) = rest :=
              List.eraseP_cons_of_pos (by simp)
            have hrep : replay fr = some (fr.filterMap id, 0) :=
              replay_allSome fr (hmall (f.number + 1, fr) (by simp))
            rw [show dequeue ⟨ips, f, (f.number + 1, fr) :: rest, some l⟩ =
                (DeqRes.ok a, ⟨ips, ⟨f.number + 1, fr.filterMap id, 0, fr⟩,
                  rest, some l⟩) from
              by simp [dequeue, hrem, Seg.size, Seg.sizeOnDisk, hc2, advanceHead,
                hadj, hfind, herase, hrep]]
            intro p hp
            simp only [diskFiles, List.mem_cons, List.mem_append,
              List.mem_singleton, List.not_mem_nil, or_false] at hp
            rcases hp with h' | h' | h'
            · subst h'
              exact hb (f.number + 1, fr) (by simp [diskFiles, hms0])
            · exact hb p (by simp [diskFiles, hms0, h'])
            · subst h'
              exact hb (l.number, l.frames) (by simp [diskFiles, hms0])
    · rw [show dequeue ⟨ips, f, ms, lo⟩ =
          (DeqRes.ok a,
            ⟨ips, ⟨f.number, tl, f.removeCount + 1, f.frames ++ [none]⟩, ms, lo⟩) from
        by simp [dequeue, hrem, Seg.size, Seg.sizeOnDisk, hc]]
      intro p hp
      simp only [diskFiles, List.mem_cons] at hp
      rcases hp with h' | h'
      · subst h'
        show dataCount (f.frames ++ [none]) ≤ ips
        rw [dataCount_append, dataCount_none_zero]
        have := hb (f.number, f.frames) (by simp [diskFiles])
        simpa using this
      · exact hb p (by simp [diskFiles, h'])

/-- On a well-formed queue, no disk file has more tombstone frames than
data frames (the first segment's tombstones are bounded by its accounting
invariant; middle and last files hold no tombstones at all). -/
theorem WF_tomb_le_data {α : Type} (q : DQue α) (hwf : WF q) :
    ∀ p ∈ diskFiles q, tombCount p.2 ≤ dataCount p.2 := by
  rcases q with ⟨ips, f, ms, lo⟩
  obtain ⟨⟨hd, ht⟩, hrest⟩ := hwf
  dsimp only at hd ht
  intro p hp
  simp only [diskFiles, List.mem_cons, List.mem_append] at hp
  rcases hp with h1 | h1
  · subst h1
    show tombCount f.frames ≤ dataCount f.frames
    rw [hd, ht]
    omega
  · cases lo with
    | none =>
      have hms : ms = [] := hrest
      subst hms
      simp at h1
    | some l =>
      obtain ⟨hlf, -, hmall, -, -⟩ := hrest
      dsimp only at hmall
      rcases h1 with h2 | h2
      · rw [tombCount_allSome p.2 (hmall p h2)]
        omega
      · simp only [List.mem_singleton] at h2
        subst h2
        show tombCount l.frames ≤ dataCount l.frames
        rw [hlf, tombCount_allSome _ (by simp)]
        omega

theorem dequeue_WF {α : Type} (q : DQue α) (hwf : WF q) :
    WF (dequeue q).2 ∧ (dequeue q).2.ips = q.ips := by
  rcases dequeue_step q hwf with ⟨-, hd⟩ | ⟨a, q', hd, hwf', -, hips⟩
  · rw [hd]
    exact ⟨hwf, rfl⟩
  · rw [hd]
    exact ⟨hwf', hips⟩

theorem runQ_inv {α : Type} (ops : List (Op α)) :
    ∀ q : DQue α, 1 ≤ q.ips → WF q → Bounded q →
      WF (runQ ops q) ∧ Bounded (runQ ops q) ∧ (runQ ops q).ips = q.ips := by
  induction ops with
  | nil => intro q h1 hwf hb; exact ⟨hwf, hb, rfl⟩
  | cons op ops ih =>
    intro q h1 hwf hb
    cases op with
    | enq a =>
      obtain ⟨hwf', -, hips⟩ := enqueue_step q a hwf
      have hb' := enqueue_bounded q a h1 hwf hb
      have h := ih (enqueue q a) (by rw [hips]; exact h1) hwf' hb'
      exact ⟨h.1, h.2.1, by rw [show runQ (Op.enq a :: ops) q = runQ ops (enqueue q a) from rfl] at *; rw [h.2.2, hips]⟩
    | deq =>
      obtain ⟨hwf', hips⟩ := dequeue_WF q hwf
      have hb' := dequeue_bounded q hwf hb
      have h := ih (dequeue q).2 (by rw [hips]; exact h1) hwf' hb'
      exact ⟨h.1, h.2.1, by rw [show runQ (Op.deq :: ops) q = runQ ops (dequeue q).2 from rfl] at *; rw [h.2.2, hips]⟩

theorem Bounded_freshQ {α : Type} (ips : Nat) : Bounded (freshQ (α := α) ips) := by
  intro p hp
  simp only [freshQ, newSeg, diskFiles, List.append_nil, List.mem_singleton,
    List.mem_cons, List.not_mem_nil, or_false] at hp
  subst hp
  show dataCount ([] : List (Frame α)) ≤ ips
  simp [dataCount]

/-! ## Claim C4: rollover bound -/

/-- C4, as stated, is false: with `items_per_segment = 2`, the operation
sequence enqueue, dequeue, enqueue leaves the single segment's file holding
three frames (a data frame, a tombstone and another data frame), exceeding
`items_per_segment` — tombstone frames are appended beyond the cap because
rollover and reclamation both count only `sizeOnDisk` (data frames). -/
theorem rollover_bound_counterexample :
    (runQ c4ops (freshQ (α := Nat) 2)).ips = 2 ∧
      (runQ c4ops (freshQ (α := Nat) 2)).firstSegment.frames =
        [some 0, none, some 1] ∧
      ¬ (runQ c4ops (freshQ (α := Nat) 2)).firstSegment.frames.length ≤ 2 := by
  decide

/-- C4 (amended): in every state reachable by any sequence of `Enqueue`
and `Dequeue` operations from a fresh queue with `items_per_segment = N ≥ 1`,
no segment file ever holds more than `N` DATA frames, and hence — since no
file has more tombstones than data frames — no segment file ever holds
more than `2 * N` frames in total. -/
theorem rollover_bound_data_frames {α : Type} (ips : Nat) (q : DQue α)
    (h1 : 1 ≤ ips) (hr : Reachable ips q) :
    ∀ p ∈ diskFiles q, dataCount p.2 ≤ ips ∧ p.2.length ≤ 2 * ips := by
  obtain ⟨ops, rfl⟩ := hr
  have hinv := runQ_inv ops (freshQ ips) h1 (WF_freshQ ips) (Bounded_freshQ ips)
  have hips : (runQ ops (freshQ (α := α) ips)).ips = ips := hinv.2.2
  intro p hp
  have hdata : dataCount p.2 ≤ ips := by
    have := hinv.2.1 p hp
    rwa [hips] at this
  refine ⟨hdata, ?_⟩
  have htomb := WF_tomb_le_data _ hinv.1 p hp
  have hlen := length_eq_dataCount_add_tombCount p.2
  omega

/-- Witness for the amended C4 on the reachable state of the
counterexample trace. -/
theorem rollover_bound_data_frames_witness :
    (1 ≤ 2 ∧ Reachable 2 (runQ c4ops (freshQ (α := Nat) 2))) ∧
      ∀ p ∈ diskFiles (runQ c4ops (freshQ (α := Nat) 2)),
        dataCount p.2 ≤ 2 ∧ p.2.length ≤ 2 * 2 :=
  ⟨⟨by decide, ⟨c4ops, rfl⟩⟩,
    rollover_bound_data_frames 2 (runQ c4ops (freshQ (α := Nat) 2))
      (by decide) ⟨c4ops, rfl⟩⟩

end DqueModel
